import Mathlib

/-!
Verification of the LFCA core of the forcesmip repository
(notebook ForceSMIP_LFCA_simple.ipynb, functions low_pass_weights,
filter_padding, filter_ts, lfca).

Modelling conventions, used throughout this file:

- Machine floats are modelled by exact rationals (ℚ).  Each numpy 1-D array
  becomes a List ℚ and each 2-D array a List (List ℚ) of its rows.
- Transcendental library functions (np.sin, np.sqrt, np.pi) and external
  numeric solvers (eofs.standard.Eof, np.linalg.eigh, np.polyfit/np.poly1d,
  scipy butter+filtfilt) are not code of this repository; they enter the
  embedding as explicit function parameters (oracles), so every theorem
  quantifies over their behaviour, constrained only by hypotheses that state
  the library contracts actually relied on (for example that
  scipy.signal.filtfilt preserves the length of its input).
- Python exceptions are modelled with Except PyRuntimeError; both the explicit
  ValueError raises of the source and numpy broadcast failures are ValueError
  in Python and are represented by the valueError constructor.
- Out-of-range reads are modelled with List.getD, which returns 0 outside the
  list; all theorems about entries carry the bounds under which the source
  would actually index.
-/

/-- Python exceptions that the embedded code can raise: explicit
ValueError raises and numpy broadcast-mismatch ValueErrors, plus the
ZeroDivisionError of a literal division by an integer zero. -/
inductive PyRuntimeError where
  | valueError (msg : String) : PyRuntimeError
  | zeroDivisionError : PyRuntimeError
deriving DecidableEq, Repr

/-- Number of columns of a row-major matrix, read off the first row, as numpy
shape inference sees it on a well-formed (rectangular) array. -/
def ncols (m : List (List ℚ)) : ℕ :=
  (m.head?.map List.length).getD 0

/-- Column j of a row-major matrix (numpy m[:, j]); out-of-range entries
read as 0 via getD. -/
def colj (m : List (List ℚ)) (j : ℕ) : List ℚ :=
  m.map (fun r => r.getD j 0)

/-- Matrix transpose (numpy .T) of a row-major matrix. -/
def transposeM (m : List (List ℚ)) : List (List ℚ) :=
  (List.range (ncols m)).map (colj m)

/-- Dot product of two vectors (numpy np.dot on 1-D arrays). -/
def dotQ (a b : List ℚ) : ℚ :=
  (List.zipWith (· * ·) a b).sum

/-- Matrix product (numpy @ / np.dot on 2-D arrays). -/
def matMul (a b : List (List ℚ)) : List (List ℚ) :=
  a.map (fun r => (transposeM b).map (fun c => dotQ r c))

/-- Column means of a matrix (numpy np.mean(m, axis=0)). -/
def colMeans (m : List (List ℚ)) : List ℚ :=
  (transposeM m).map (fun c => c.sum / (m.length : ℚ))

/-- Column-wise centering, x - np.mean(x, axis=0). -/
def centerCols (m : List (List ℚ)) : List (List ℚ) :=
  m.map (fun r => List.zipWith (fun a mu => a - mu) r (colMeans m))

/-- Sample covariance matrix of the columns of m
(numpy np.cov(m, rowvar=False), default ddof=1, so each entry is divided by
the number of rows minus one). -/
def covQ (m : List (List ℚ)) : List (List ℚ) :=
  let y := centerCols m
  (transposeM y).map (fun ci =>
    (transposeM y).map (fun cj => dotQ ci cj / ((m.length : ℚ) - 1)))

/-- Embedding of low_pass_weights(window, cutoff) from the notebook.

Source:
  order = ((window - 1) // 2 ) + 1
  nwts = 2 * order + 1
  w = np.zeros([nwts]); n = nwts // 2
  w[n] = 2 * cutoff
  k = np.arange(1., n)
  sigma = np.sin(np.pi * k / n) * n / (np.pi * k)
  firstfactor = np.sin(2. * np.pi * cutoff * k) / (np.pi * k)
  w[n-1:0:-1] = firstfactor * sigma
  w[n+1:-1] = firstfactor * sigma
  return w[1:-1]

Here n = nwts // 2 = order, and the returned slice w[1:-1] has length
2*n - 1 with centre entry w[n] = 2*cutoff, w[n-i] = w[n+i] = v(i) for
1 ≤ i ≤ n-1 where v(i) = firstfactor(i) * sigma(i), and w[0], w[nwts-1]
(never written, still zero) are dropped.  That list is exactly
left ++ [2*cutoff] ++ left.reverse with left = [v(n-1), ..., v(1)].
np.sin and np.pi are passed in as the oracle parameters s and pi.
The only failing input is a negative nwts (window ≤ -2), where
np.zeros([nwts]) raises; this is modelled by returning none. -/
def low_pass_weights (s : ℚ → ℚ) (pi : ℚ) (window : ℤ) (cutoff : ℚ) :
    Option (List ℚ) :=
  let order : ℤ := (window - 1).fdiv 2 + 1
  let n : ℤ := order
  if window ≤ -2 then none
  else if n ≤ 0 then some []
  else
    let v : ℚ → ℚ := fun k =>
      (s (2 * pi * cutoff * k) / (pi * k)) * (s (pi * k / (n : ℚ)) * (n : ℚ) / (pi * k))
    let left : List ℚ := (List.range (n - 1).toNat).map (fun i => v ((n : ℚ) - 1 - (i : ℚ)))
    some (left ++ [2 * cutoff] ++ left.reverse)

section GetDLemmas

/-- Reading getD inside the list is the indexed element. -/
theorem getD_eq_getElem_of_lt {α : Type} [Inhabited α] (l : List α) (d : α) {i : ℕ}
    (h : i < l.length) : l.getD i d = l[i] :=
  List.getD_eq_getElem l d h

/-- getD through List.map, inside the list. -/
theorem getD_map_of_lt {α β : Type} (f : α → β) (l : List α) (d : α) (d' : β) {i : ℕ}
    (h : i < l.length) : (l.map f).getD i d' = f (l.getD i d) := by
  rw [List.getD_eq_getElem _ d' (by simpa), List.getD_eq_getElem _ d h]
  simp

/-- getD of a palindrome-shaped list a ++ [x] ++ a.reverse is symmetric. -/
theorem getD_append_center_reverse_symm (a : List ℚ) (x : ℚ) {i : ℕ}
    (h : i < (a ++ [x] ++ a.reverse).length) :
    (a ++ [x] ++ a.reverse).getD i 0
      = (a ++ [x] ++ a.reverse).getD ((a ++ [x] ++ a.reverse).length - 1 - i) 0 := by
  set l := a ++ [x] ++ a.reverse with hl
  have hrev : l.reverse = l := by
    simp [hl, List.reverse_append]
  rw [List.getD_eq_getElem?_getD, List.getD_eq_getElem?_getD]
  conv_lhs => rw [← hrev]
  rw [List.getElem?_reverse h]

end GetDLemmas

section LowPassWeightsClaims

/-- C5 counterexample: low_pass_weights performs no input validation.
With window length 1 it returns the single-tap list [2 * cutoff] instead of
raising, and with the non-positive cutoff 0 it returns a tap list of zeros
instead of raising.  (In the source there is no raise statement at all in
low_pass_weights, and every numpy call in it succeeds on these inputs.) -/
theorem low_pass_weights_no_error_counterexample :
    low_pass_weights (fun _ => 0) 1 1 (1/2) = some [1] ∧
    low_pass_weights (fun _ => 0) 1 5 0 = some [0, 0, 0, 0, 0] := by
  refine ⟨by norm_num [low_pass_weights, Int.fdiv], ?_⟩
  norm_num [low_pass_weights, Int.fdiv]
  rfl

/-- C5 amended: low_pass_weights does not validate its arguments: a window
length of 1 yields the single tap [2 * cutoff] for every cutoff (positive or
not), and every window length down to -1 yields a tap list without error,
whatever the cutoff sign. -/
theorem low_pass_weights_no_validation (s : ℚ → ℚ) (pi cutoff : ℚ) (window : ℤ)
    (hw : -1 ≤ window) :
    low_pass_weights s pi 1 cutoff = some [2 * cutoff] ∧
    (low_pass_weights s pi window cutoff).isSome := by
  constructor
  · simp [low_pass_weights, Int.fdiv]
  · have h1 : ¬ (window ≤ -2) := by omega
    unfold low_pass_weights
    simp only [if_neg h1]
    split <;> simp

/-- Witness for the C5 amended theorem at window = 0, cutoff = 3. -/
theorem low_pass_weights_no_validation_witness :
    low_pass_weights (fun _ => 0) 1 1 3 = some [2 * 3] ∧
    (low_pass_weights (fun _ => (0 : ℚ)) 1 0 3).isSome :=
  low_pass_weights_no_validation (fun _ => 0) 1 3 0 (by norm_num)

/-- C9: for every odd window length of at least 3 and every cutoff frequency
strictly between 0 and 1/2, the tap sequence returned by low_pass_weights is
symmetric: entry i equals entry (length - 1 - i) for every index i, for every
behaviour of the sine oracle and of the pi constant. -/
theorem low_pass_weights_symmetric (s : ℚ → ℚ) (pi cutoff : ℚ) (window : ℤ)
    (hodd : window % 2 = 1) (h3 : 3 ≤ window) (hc0 : 0 < cutoff) (hc1 : cutoff < 1/2)
    (taps : List ℚ) (htaps : low_pass_weights s pi window cutoff = some taps)
    (i : ℕ) (hi : i < taps.length) :
    taps.getD i 0 = taps.getD (taps.length - 1 - i) 0 := by
  have h1 : ¬ (window ≤ -2) := by omega
  have h2 : ¬ ((window - 1).fdiv 2 + 1 ≤ 0) := by
    have : 0 ≤ (window - 1).fdiv 2 := Int.fdiv_nonneg (by omega) (by omega)
    omega
  unfold low_pass_weights at htaps
  simp only [if_neg h1, if_neg h2, Option.some.injEq] at htaps
  subst htaps
  exact getD_append_center_reverse_symm _ _ hi

/-- Witness for C9 at window = 5, cutoff = 1/4, with the zero sine oracle. -/
theorem low_pass_weights_symmetric_witness :
    ([0, 0, 1/2, 0, 0] : List ℚ).getD 0 0
      = ([0, 0, 1/2, 0, 0] : List ℚ).getD (([0, 0, 1/2, 0, 0] : List ℚ).length - 1 - 0) 0 :=
  low_pass_weights_symmetric (fun _ => 0) 1 (1/4) 5 (by decide) (by decide)
    (by norm_num) (by norm_num) [0, 0, 1/2, 0, 0]
    (by norm_num [low_pass_weights, Int.fdiv]; rfl) 0 (by simp)

end LowPassWeightsClaims

section MoreGetDLemmas

/-- getD through zipWith, inside both lists. -/
theorem getD_zipWith_of_lt {α β γ : Type} (f : α → β → γ) (a : List α) (b : List β)
    (da : α) (db : β) (dc : γ) {i : ℕ} (h1 : i < a.length) (h2 : i < b.length) :
    (List.zipWith f a b).getD i dc = f (a.getD i da) (b.getD i db) := by
  rw [List.getD_eq_getElem _ dc (by simp; omega), List.getD_eq_getElem _ da h1,
    List.getD_eq_getElem _ db h2]
  exact List.getElem_zipWith

/-- getD of List.range inside the range. -/
theorem getD_range_of_lt {n i : ℕ} (h : i < n) : (List.range n).getD i 0 = i := by
  rw [List.getD_eq_getElem _ 0 (by simpa)]
  exact List.getElem_range i (by simpa)

/-- getD of an append, reading inside the left part. -/
theorem getD_append_left_of_lt {α : Type} (a b : List α) (d : α) {i : ℕ}
    (h : i < a.length) : (a ++ b).getD i d = a.getD i d := by
  rw [List.getD_eq_getElem?_getD, List.getD_eq_getElem?_getD,
    List.getElem?_append]
  simp [h]

/-- getD of an append, reading at an offset into the right part. -/
theorem getD_append_right_add {α : Type} (a b : List α) (d : α) (i : ℕ) :
    (a ++ b).getD (a.length + i) d = b.getD i d := by
  rw [List.getD_eq_getElem?_getD, List.getD_eq_getElem?_getD,
    List.getElem?_append_right (Nat.le_add_right _ _)]
  simp

end MoreGetDLemmas

/-- Embedding of filter_padding(ts, window, ftype, detrend, detrend_poly)
from the notebook.

Source:
  ts_pad = np.zeros(2*window+len(ts))
  if detrend:
      t = np.arange(len(ts)); z = np.polyfit(t,ts,detrend_poly)
      p = np.poly1d(z); ts_in = ts-p(t)
  else:
      ts_in = ts
  ts_pad[window:-window] = ts_in[:]
  if ftype == 'mirror':
      ts_pad[:window] = ts_in[:window][::-1]
      ts_pad[-window:] = ts_in[-window:][::-1]
  elif ftype == 'periodic':
      ts_pad[:window] = ts_in[-window:]
      ts_pad[-window:] = ts_in[:window]
  else:
      raise ValueError(...)
  if detrend:
      t_pad = np.arange(-window,len(ts)+window)
      ts_pad = ts_pad+p(t_pad)
  return ts_pad

The least-squares polynomial fit np.polyfit / np.poly1d is an external numpy
facility; it is passed in as the oracle parameter polyfit, which receives the
raw series and the degree (the fit abscissa np.arange(len(ts)) is determined
by the series length) and returns the fitted polynomial as a function.  The
middle slice assignment ts_pad[window:-window] = ts_in raises a broadcast
ValueError exactly when window = 0 and the series is non-empty (the slice is
then empty while ts_in is not); the pad assignments raise a broadcast
ValueError exactly when the series is shorter than window.  Both happen
before the trend re-addition; the middle assignment happens before the ftype
dispatch, the pad assignments after it. -/
def filter_padding (polyfit : List ℚ → ℕ → (ℚ → ℚ)) (ts : List ℚ) (window : ℕ)
    (ftype : String) (detrend : Bool) (detrend_poly : ℕ) :
    Except PyRuntimeError (List ℚ) :=
  let p : ℚ → ℚ := polyfit ts detrend_poly
  let ts_in : List ℚ :=
    if detrend then
      List.zipWith (fun (a : ℚ) (t : ℕ) => a - p (t : ℚ)) ts (List.range ts.length)
    else ts
  let reAdd : List ℚ → List ℚ := fun l =>
    if detrend then
      List.zipWith (fun (a : ℚ) (k : ℕ) => a + p ((k : ℚ) - (window : ℚ))) l
        (List.range l.length)
    else l
  if window = 0 ∧ ts.length ≠ 0 then
    .error (.valueError "could not broadcast input array")
  else if ftype = "mirror" then
    if ts.length < window then .error (.valueError "could not broadcast input array")
    else .ok (reAdd ((ts_in.take window).reverse ++ ts_in
      ++ (ts_in.drop (ts_in.length - window)).reverse))
  else if ftype = "periodic" then
    if ts.length < window then .error (.valueError "could not broadcast input array")
    else .ok (reAdd (ts_in.drop (ts_in.length - window) ++ ts_in ++ ts_in.take window))
  else .error (.valueError "in filter_padding: ftype must be one of mirror or periodic.")

section FilterPaddingClaims

/-- C10: for every series, every window with 0 < window and window at most the
series length, both padding kinds and both detrend settings, filter_padding
succeeds with a series of length len + 2*window whose middle segment (indices
window to window + len - 1) equals the original series exactly: the polynomial
trend subtracted before padding is re-added over those same indices, for every
behaviour of the polyfit oracle. -/
theorem filter_padding_keeps_middle (polyfit : List ℚ → ℕ → (ℚ → ℚ)) (ts : List ℚ)
    (window : ℕ) (ftype : String) (detrend : Bool) (detrend_poly : ℕ)
    (hw0 : 0 < window) (hwl : window ≤ ts.length)
    (hf : ftype = "mirror" ∨ ftype = "periodic") :
    ∃ out, filter_padding polyfit ts window ftype detrend detrend_poly = .ok out ∧
      out.length = ts.length + 2 * window ∧
      ∀ i < ts.length, out.getD (window + i) 0 = ts.getD i 0 := by
  set p : ℚ → ℚ := polyfit ts detrend_poly with hp
  set ts_in : List ℚ :=
    (if detrend then List.zipWith (fun (a : ℚ) (t : ℕ) => a - p (t : ℚ)) ts (List.range ts.length)
     else ts) with hin
  have hlen_in : ts_in.length = ts.length := by
    rw [hin]; split <;> simp
  -- entries of ts_in inside the list
  have hin_getD : ∀ i < ts.length,
      ts_in.getD i 0 = ts.getD i 0 - (if detrend then p (i : ℚ) else 0) := by
    intro i hi
    rw [hin]
    split
    · rw [getD_zipWith_of_lt _ _ _ 0 0 0 hi (by simpa), getD_range_of_lt hi]
    · simp
  -- the re-addition of the trend, entrywise
  have hreAdd : ∀ (l : List ℚ) (i : ℕ), i < l.length →
      ((if detrend then
          List.zipWith (fun (a : ℚ) (k : ℕ) => a + p ((k : ℚ) - (window : ℚ))) l (List.range l.length)
        else l).getD i 0)
        = l.getD i 0 + (if detrend then p ((i : ℚ) - (window : ℚ)) else 0) := by
    intro l i hi
    split
    · rw [getD_zipWith_of_lt _ _ _ 0 0 0 hi (by simpa), getD_range_of_lt hi]
    · simp
  have hreAdd_len : ∀ (l : List ℚ),
      (if detrend then
          List.zipWith (fun (a : ℚ) (k : ℕ) => a + p ((k : ℚ) - (window : ℚ))) l (List.range l.length)
        else l).length = l.length := by
    intro l; split <;> simp
  -- middle entries of any padded list with a window-length left pad
  have hmid : ∀ (a b : List ℚ), a.length = window → ∀ i < ts.length,
      (a ++ ts_in ++ b).getD (window + i) 0 = ts_in.getD i 0 := by
    intro a b ha i hi
    rw [List.append_assoc, ← ha, getD_append_right_add,
      getD_append_left_of_lt _ _ _ (by omega)]
  -- the combined statement for any padded list
  have hcore : ∀ (a b : List ℚ), a.length = window → b.length = window →
      ((if detrend then
          List.zipWith (fun (x : ℚ) (k : ℕ) => x + p ((k : ℚ) - (window : ℚ)))
            (a ++ ts_in ++ b) (List.range (a ++ ts_in ++ b).length)
        else (a ++ ts_in ++ b)).length = ts.length + 2 * window ∧
      ∀ i < ts.length,
        (if detrend then
          List.zipWith (fun (x : ℚ) (k : ℕ) => x + p ((k : ℚ) - (window : ℚ)))
            (a ++ ts_in ++ b) (List.range (a ++ ts_in ++ b).length)
        else (a ++ ts_in ++ b)).getD (window + i) 0 = ts.getD i 0) := by
    intro a b ha hb
    constructor
    · rw [hreAdd_len]; simp [ha, hb, hlen_in]; ring
    · intro i hi
      rw [hreAdd _ (window + i) (by simp [ha, hlen_in]; omega), hmid a b ha i hi,
        hin_getD i hi]
      push_cast
      split <;> ring_nf
  have hnz : ¬ (window = 0 ∧ ts.length ≠ 0) := by omega
  have hA : ((ts_in.take window).reverse).length = window := by
    simp [hlen_in]; omega
  have hB : ((ts_in.drop (ts_in.length - window)).reverse).length = window := by
    simp [hlen_in]; omega
  have hA2 : (ts_in.drop (ts_in.length - window)).length = window := by
    simp [hlen_in]; omega
  have hB2 : (ts_in.take window).length = window := by
    simp [hlen_in]; omega
  rcases hf with hf | hf <;> subst hf
  · have hok : filter_padding polyfit ts window "mirror" detrend detrend_poly
        = .ok (if detrend then
            List.zipWith (fun (x : ℚ) (k : ℕ) => x + p ((k : ℚ) - (window : ℚ)))
              ((ts_in.take window).reverse ++ ts_in
                ++ (ts_in.drop (ts_in.length - window)).reverse)
              (List.range ((ts_in.take window).reverse ++ ts_in
                ++ (ts_in.drop (ts_in.length - window)).reverse).length)
          else ((ts_in.take window).reverse ++ ts_in
            ++ (ts_in.drop (ts_in.length - window)).reverse)) := by
      simp only [filter_padding]
      rw [if_neg hnz, if_pos trivial, if_neg (by omega : ¬ ts.length < window)]
    exact ⟨_, hok, (hcore _ _ hA hB).1, (hcore _ _ hA hB).2⟩
  · have hok : filter_padding polyfit ts window "periodic" detrend detrend_poly
        = .ok (if detrend then
            List.zipWith (fun (x : ℚ) (k : ℕ) => x + p ((k : ℚ) - (window : ℚ)))
              (ts_in.drop (ts_in.length - window) ++ ts_in ++ ts_in.take window)
              (List.range (ts_in.drop (ts_in.length - window) ++ ts_in
                ++ ts_in.take window).length)
          else (ts_in.drop (ts_in.length - window) ++ ts_in ++ ts_in.take window)) := by
      simp only [filter_padding]
      rw [if_neg hnz, if_neg (by decide : ¬ (("periodic" : String) = "mirror")),
        if_pos trivial, if_neg (by omega : ¬ ts.length < window)]
    exact ⟨_, hok, (hcore _ _ hA2 hB2).1, (hcore _ _ hA2 hB2).2⟩

/-- Witness for C10 at ts = [3, 5, 9], window = 2, mirror padding, detrend on,
with the identity polynomial as the fit oracle. -/
theorem filter_padding_keeps_middle_witness :
    ∃ out, filter_padding (fun _ _ => (fun x => x)) [3, 5, 9] 2 "mirror" true 1 = .ok out ∧
      out.length = ([3, 5, 9] : List ℚ).length + 2 * 2 ∧
      ∀ i < ([3, 5, 9] : List ℚ).length,
        out.getD (2 + i) 0 = ([3, 5, 9] : List ℚ).getD i 0 :=
  filter_padding_keeps_middle (fun _ _ => (fun x => x)) [3, 5, 9] 2 "mirror" true 1
    (by norm_num) (by norm_num) (Or.inl rfl)

end FilterPaddingClaims

/-- Full discrete convolution of two sequences: output index n carries the sum
of a[i] * v[n-i]; entries outside either list contribute 0.  Output length is
len(a) + len(v) - 1, as numpy/scipy full-mode convolution. -/
def fullConv (a v : List ℚ) : List ℚ :=
  (List.range (a.length + v.length - 1)).map (fun n =>
    ((List.range (n + 1)).map (fun i => a.getD i 0 * v.getD (n - i) 0)).sum)

/-- scipy.signal.convolve(a, v, 'same'): the centre len(a) entries of the full
convolution, starting at offset (len(v) - 1) // 2. -/
def sameConv (a v : List ℚ) : List ℚ :=
  ((fullConv a v).drop ((v.length - 1) / 2)).take a.length

/-- Python slice l[a:-a]: for a > 0 the entries a .. len - a - 1; for a = 0 the
slice l[0:-0] = l[0:0] is empty. -/
def pySliceTrim (l : List ℚ) (a : ℕ) : List ℚ :=
  if a = 0 then [] else (l.drop a).take (l.length - 2 * a)

/-- Embedding of filter_ts(ts, cutoff, filter_type, padding_type, detrend,
detrend_poly) from the notebook.

Source:
  lanczos_weights=low_pass_weights(cutoff*2+1,1./cutoff)
  n_pad=int(np.ceil(len(lanczos_weights)/2))
  ts_mirr=filter_padding(ts,n_pad,padding_type,detrend=detrend,detrend_poly=detrend_poly)
  if filter_type=='lanczos':
      return convolve(ts_mirr,lanczos_weights,'same')[n_pad:-n_pad]
  elif filter_type=='butter':
      b,a = butter(3,1./(cutoff/2),btype='low')
      return filtfilt(b,a,ts_mirr)[n_pad:-n_pad]
  else:
      raise ValueError(...)

The expression 1./cutoff raises ZeroDivisionError for cutoff = 0, before
anything else; this is checked first.  n_pad = ceil(L/2) = (L+1)/2 for the
tap-list length L.  The scipy Butterworth pipeline butter(3, 1/(cutoff/2))
followed by filtfilt is external library code and is folded into the oracle
parameter bf, which receives the raw cutoff and the padded series; scipy's
documented contract that filtfilt preserves the input length is taken as a
hypothesis where needed, never assumed silently.  The sine oracle s, the pi
constant and the polyfit oracle are threaded through to low_pass_weights and
filter_padding. -/
def filter_ts (s : ℚ → ℚ) (pi : ℚ) (polyfit : List ℚ → ℕ → (ℚ → ℚ))
    (bf : ℚ → List ℚ → List ℚ) (ts : List ℚ) (cutoff : ℤ)
    (filter_type padding_type : String) (detrend : Bool) (detrend_poly : ℕ) :
    Except PyRuntimeError (List ℚ) :=
  if cutoff = 0 then .error .zeroDivisionError
  else
    match low_pass_weights s pi (cutoff * 2 + 1) (1 / (cutoff : ℚ)) with
    | none => .error (.valueError "negative dimensions are not allowed")
    | some lanczos_weights =>
      let n_pad : ℕ := (lanczos_weights.length + 1) / 2
      do
        let ts_mirr ← filter_padding polyfit ts n_pad padding_type detrend detrend_poly
        if filter_type = "lanczos" then
          pure (pySliceTrim (sameConv ts_mirr lanczos_weights) n_pad)
        else if filter_type = "butter" then
          pure (pySliceTrim (bf ((cutoff : ℚ)) ts_mirr) n_pad)
        else
          .error (.valueError "in filter_ts: filter_type must be one of lanczos or butter.")

section FilterTsLemmas

/-- Length of a full convolution. -/
theorem fullConv_length (a v : List ℚ) :
    (fullConv a v).length = a.length + v.length - 1 := by
  simp [fullConv]

/-- Same-mode convolution with a non-empty kernel preserves the length of its
first argument. -/
theorem sameConv_length (a v : List ℚ) (hv : 1 ≤ v.length) :
    (sameConv a v).length = a.length := by
  simp [sameConv, fullConv]
  omega

/-- Length of the Python slice l[a:-a] for positive a. -/
theorem pySliceTrim_length (l : List ℚ) (a : ℕ) (ha : 0 < a) :
    (pySliceTrim l a).length = l.length - 2 * a := by
  simp [pySliceTrim, Nat.pos_iff_ne_zero.mp ha]
  omega

/-- Trend re-addition (a zipWith against an index range) keeps the length. -/
theorem reAdd_length (d : Bool) (g : ℚ → ℕ → ℚ) (l : List ℚ) :
    (if d then List.zipWith g l (List.range l.length) else l).length = l.length := by
  split <;> simp

/-- When filter_padding succeeds, the output has length len + 2*window, and
window = 0 forces an empty input. -/
theorem filter_padding_length_of_ok (polyfit : List ℚ → ℕ → (ℚ → ℚ)) (ts : List ℚ)
    (window : ℕ) (ftype : String) (detrend : Bool) (detrend_poly : ℕ) (out : List ℚ)
    (hok : filter_padding polyfit ts window ftype detrend detrend_poly = .ok out) :
    out.length = ts.length + 2 * window ∧ (window = 0 → ts.length = 0) := by
  simp only [filter_padding] at hok
  have hlen_in : (if detrend = true then
      List.zipWith (fun (a : ℚ) (t : ℕ) => a - (polyfit ts detrend_poly) (t : ℚ)) ts
        (List.range ts.length) else ts).length = ts.length := by
    split <;> simp
  by_cases hg : window = 0 ∧ ts.length ≠ 0
  · rw [if_pos hg] at hok
    exact absurd hok (by simp)
  · rw [if_neg hg] at hok
    by_cases hm : ftype = "mirror"
    · rw [if_pos hm] at hok
      by_cases hl : ts.length < window
      · rw [if_pos hl] at hok
        exact absurd hok (by simp)
      · rw [if_neg hl] at hok
        simp only [Except.ok.injEq] at hok
        subst hok
        refine ⟨?_, fun h0 => by omega⟩
        rw [reAdd_length]
        simp [hlen_in]
        omega
    · rw [if_neg hm] at hok
      by_cases hp : ftype = "periodic"
      · rw [if_pos hp] at hok
        by_cases hl : ts.length < window
        · rw [if_pos hl] at hok
          exact absurd hok (by simp)
        · rw [if_neg hl] at hok
          simp only [Except.ok.injEq] at hok
          subst hok
          refine ⟨?_, fun h0 => by omega⟩
          rw [reAdd_length]
          simp [hlen_in]
          omega
      · rw [if_neg hp] at hok
        exact absurd hok (by simp)

/-- Whenever filter_ts succeeds, its output has the length of its input, the
only library contract needed being that the Butterworth filtfilt oracle
preserves length. -/
theorem filter_ts_length_of_ok (s : ℚ → ℚ) (pi : ℚ) (polyfit : List ℚ → ℕ → (ℚ → ℚ))
    (bf : ℚ → List ℚ → List ℚ) (ts : List ℚ) (cutoff : ℤ) (ft pt : String)
    (d : Bool) (dp : ℕ)
    (hbf : ∀ c l, (bf c l).length = l.length) (out : List ℚ)
    (hok : filter_ts s pi polyfit bf ts cutoff ft pt d dp = .ok out) :
    out.length = ts.length := by
  by_cases hc : cutoff = 0
  · simp only [filter_ts, if_pos hc] at hok
    exact absurd hok (by simp)
  · cases hlw : low_pass_weights s pi (cutoff * 2 + 1) (1 / (cutoff : ℚ)) with
    | none =>
      simp only [filter_ts, if_neg hc, hlw] at hok
      exact absurd hok (by simp)
    | some w =>
      simp only [filter_ts, if_neg hc, hlw] at hok
      cases hpad : filter_padding polyfit ts ((w.length + 1) / 2) pt d dp with
      | error e =>
        rw [hpad] at hok
        exact absurd hok (by simp [Bind.bind, Except.bind])
      | ok ts_mirr =>
        rw [hpad] at hok
        have hlen := filter_padding_length_of_ok _ _ _ _ _ _ _ hpad
        simp only [Bind.bind, Except.bind] at hok
        by_cases hnp : (w.length + 1) / 2 = 0
        · have hts : ts.length = 0 := hlen.2 hnp
          by_cases hft : ft = "lanczos"
          · rw [if_pos hft] at hok
            simp only [pure, Except.pure, Except.ok.injEq] at hok
            subst hok
            simp [pySliceTrim, hnp, hts]
          · rw [if_neg hft] at hok
            by_cases hfb : ft = "butter"
            · rw [if_pos hfb] at hok
              simp only [pure, Except.pure, Except.ok.injEq] at hok
              subst hok
              simp [pySliceTrim, hnp, hts]
            · rw [if_neg hfb] at hok
              exact absurd hok (by simp)
        · have hw1 : 1 ≤ w.length := by omega
          by_cases hft : ft = "lanczos"
          · rw [if_pos hft] at hok
            simp only [pure, Except.pure, Except.ok.injEq] at hok
            subst hok
            rw [pySliceTrim_length _ _ (by omega), sameConv_length _ _ hw1, hlen.1]
            omega
          · rw [if_neg hft] at hok
            by_cases hfb : ft = "butter"
            · rw [if_pos hfb] at hok
              simp only [pure, Except.pure, Except.ok.injEq] at hok
              subst hok
              rw [pySliceTrim_length _ _ (by omega), hbf, hlen.1]
              omega
            · rw [if_neg hfb] at hok
              exact absurd hok (by simp)

/-- An unsupported padding kind always makes filter_padding fail. -/
theorem filter_padding_error_on_bad_ftype (polyfit : List ℚ → ℕ → (ℚ → ℚ)) (ts : List ℚ)
    (window : ℕ) (ftype : String) (detrend : Bool) (detrend_poly : ℕ)
    (h1 : ftype ≠ "mirror") (h2 : ftype ≠ "periodic") :
    ∃ e, filter_padding polyfit ts window ftype detrend detrend_poly = .error e := by
  simp only [filter_padding]
  by_cases hg : window = 0 ∧ ts.length ≠ 0
  · rw [if_pos hg]; exact ⟨_, rfl⟩
  · rw [if_neg hg, if_neg h1, if_neg h2]; exact ⟨_, rfl⟩

end FilterTsLemmas

section FilterTsClaims

/-- C6: for every input series, cutoff, and every supported combination of
filter kind (lanczos, butter) and padding kind (mirror, periodic), whenever
filter_ts returns a series it has exactly the length of the input series.
The only library contract used is that the scipy Butterworth filtfilt oracle
preserves the length of its input (its documented behaviour). -/
theorem filter_ts_length_invariant (s : ℚ → ℚ) (pi : ℚ)
    (polyfit : List ℚ → ℕ → (ℚ → ℚ)) (bf : ℚ → List ℚ → List ℚ) (ts : List ℚ)
    (cutoff : ℤ) (ft pt : String) (d : Bool) (dp : ℕ)
    (hbf : ∀ c l, (bf c l).length = l.length)
    (hcut : 1 ≤ cutoff)
    (hft : ft = "lanczos" ∨ ft = "butter")
    (hpt : pt = "mirror" ∨ pt = "periodic")
    (out : List ℚ) (hok : filter_ts s pi polyfit bf ts cutoff ft pt d dp = .ok out) :
    out.length = ts.length :=
  filter_ts_length_of_ok s pi polyfit bf ts cutoff ft pt d dp hbf out hok

/-- Witness for C6: a concrete successful butter/mirror run on a length-4
series with cutoff 1, identity filtfilt oracle and zero sine oracle. -/
theorem filter_ts_length_invariant_witness :
    filter_ts (fun _ => 0) 1 (fun _ _ => (fun _ => 0)) (fun _ l => l) [1, 2, 3, 4] 1
      "butter" "mirror" false 1 = .ok [1, 2, 3, 4] ∧
    ([1, 2, 3, 4] : List ℚ).length = ([1, 2, 3, 4] : List ℚ).length := by
  have hw : low_pass_weights (fun _ => (0:ℚ)) 1 ((1:ℤ) * 2 + 1) (1 / ((1:ℤ):ℚ))
      = some [0, 2, 0] := by
    norm_num [low_pass_weights, Int.fdiv]
    rfl
  have hpad : filter_padding (fun _ _ => (fun _ => (0:ℚ))) [1,2,3,4] 2 "mirror" false 1
      = .ok [2,1,1,2,3,4,4,3] := by
    norm_num [filter_padding]
  have hok : filter_ts (fun _ => 0) 1 (fun _ _ => (fun _ => 0)) (fun _ l => l)
      [1, 2, 3, 4] 1 "butter" "mirror" false 1 = .ok [1, 2, 3, 4] := by
    simp only [filter_ts, hw]
    norm_num [hpad, Bind.bind, Except.bind, pySliceTrim]
    rfl
  exact ⟨hok, filter_ts_length_invariant (fun _ => 0) 1 (fun _ _ => (fun _ => 0))
    (fun _ l => l) [1, 2, 3, 4] 1 "butter" "mirror" false 1
    (fun _ _ => rfl) (by norm_num) (Or.inr rfl) (Or.inl rfl) [1, 2, 3, 4] hok⟩

/-- C8 counterexample: with both kinds fully supported (lanczos, mirror) and a
positive cutoff, filter_ts still raises a ValueError when the series is
shorter than the padding length (here a length-2 series with cutoff 5, whose
padding length is 6), so kind violations are not the only error source. -/
theorem filter_ts_error_on_valid_kinds_counterexample :
    filter_ts (fun _ => 0) 1 (fun _ _ => (fun _ => 0)) (fun _ l => l) [1, 2] 5
      "lanczos" "mirror" false 1
      = .error (.valueError "could not broadcast input array") := by
  have hw : low_pass_weights (fun _ => (0:ℚ)) 1 ((5:ℤ) * 2 + 1) (1 / ((5:ℤ):ℚ))
      = some [0, 0, 0, 0, 0, 2/5, 0, 0, 0, 0, 0] := by
    norm_num [low_pass_weights, Int.fdiv]
    rfl
  have hpad : filter_padding (fun _ _ => (fun _ => (0:ℚ))) [1,2] 6 "mirror" false 1
      = .error (.valueError "could not broadcast input array") := by
    norm_num [filter_padding]
  simp only [filter_ts, hw]
  norm_num [hpad, Bind.bind, Except.bind]

/-- C8 amended: an unsupported filter kind or padding kind always makes
filter_ts fail with an error and no series is returned (the error is the
ValueError raised at the kind check, or an earlier one of the run); but this
is not the only failure source, see the counterexample. -/
theorem filter_ts_error_on_bad_kind (s : ℚ → ℚ) (pi : ℚ)
    (polyfit : List ℚ → ℕ → (ℚ → ℚ)) (bf : ℚ → List ℚ → List ℚ) (ts : List ℚ)
    (cutoff : ℤ) (ft pt : String) (d : Bool) (dp : ℕ)
    (hbad : (ft ≠ "lanczos" ∧ ft ≠ "butter") ∨ (pt ≠ "mirror" ∧ pt ≠ "periodic")) :
    ∃ e, filter_ts s pi polyfit bf ts cutoff ft pt d dp = .error e := by
  by_cases hc : cutoff = 0
  · exact ⟨.zeroDivisionError, by simp only [filter_ts, if_pos hc]⟩
  · cases hlw : low_pass_weights s pi (cutoff * 2 + 1) (1 / (cutoff : ℚ)) with
    | none =>
      exact ⟨.valueError "negative dimensions are not allowed",
        by simp only [filter_ts, if_neg hc, hlw]⟩
    | some w =>
      cases hpad : filter_padding polyfit ts ((w.length + 1) / 2) pt d dp with
      | error e =>
        refine ⟨e, ?_⟩
        simp only [filter_ts, if_neg hc, hlw, hpad, Bind.bind, Except.bind]
      | ok ts_mirr =>
        rcases hbad with ⟨hf1, hf2⟩ | ⟨hp1, hp2⟩
        · refine ⟨.valueError "in filter_ts: filter_type must be one of lanczos or butter.", ?_⟩
          simp only [filter_ts, if_neg hc, hlw, hpad, Bind.bind, Except.bind,
            if_neg hf1, if_neg hf2]
        · rcases filter_padding_error_on_bad_ftype polyfit ts ((w.length + 1) / 2)
            pt d dp hp1 hp2 with ⟨e, he⟩
          rw [he] at hpad
          exact absurd hpad (by simp)

/-- Witness for the C8 amended theorem at the unsupported filter kind gauss. -/
theorem filter_ts_error_on_bad_kind_witness :
    ∃ e, filter_ts (fun _ => 0) 1 (fun _ _ => (fun _ => 0)) (fun _ l => l) [1, 2, 3, 4] 1
      "gauss" "mirror" false 1 = .error e :=
  filter_ts_error_on_bad_kind (fun _ => 0) 1 (fun _ _ => (fun _ => 0)) (fun _ l => l)
    [1, 2, 3, 4] 1 "gauss" "mirror" false 1 (Or.inl ⟨by decide, by decide⟩)

end FilterTsClaims

/-- Insertion step of an argsort: place index i into an index list that is
already ordered by the boolean relation r, before the first entry it relates
to. -/
def argInsert (r : ℕ → ℕ → Bool) (i : ℕ) : List ℕ → List ℕ
  | [] => [i]
  | j :: js => if r i j then i :: j :: js else j :: argInsert r i js

/-- Insertion argsort of the indices 0 .. n-1 by the boolean relation r. -/
def argsortBy (r : ℕ → ℕ → Bool) (n : ℕ) : List ℕ :=
  (List.range n).foldr (argInsert r) []

/-- The comparison of an ascending stable argsort of l: by value, with ties
kept in ascending index order. -/
def argLe (l : List ℚ) (i j : ℕ) : Bool :=
  decide (l.getD i 0 < l.getD j 0 ∨ (l.getD i 0 = l.getD j 0 ∧ i ≤ j))

/-- Embedding of np.argsort(l) as called in lfca: the permutation of
0 .. len-1 that sorts l ascending, ties in ascending index order.  numpy's
default introsort runs its insertion-sort leaf at the sizes involved and is
stable there, which this models. -/
def argsortQ (l : List ℚ) : List ℕ := argsortBy (argLe l) l.length

/-- Embedding of the eigen-reordering step of lfca:
  eig_argsort = np.argsort(eig_lowfreq)[::-1].copy()
  eig_lowfreq = eig_lowfreq[eig_argsort].copy()
  eigv_lowfreq = eigv_lowfreq[:,eig_argsort].copy()
The reversed argsort is applied to the eigenvalue vector by fancy indexing and
gathers the eigenvector columns (axis 1) in the same order. -/
def sortEigs (eig : List ℚ) (eigv : List (List ℚ)) : List ℚ × List (List ℚ) :=
  let p := (argsortQ eig).reverse
  (p.map (fun i => eig.getD i 0), eigv.map (fun row => p.map (fun i => row.getD i 0)))

/-- Modelled from the spec: the reordering the spec describes, a stable sort
on the negated eigenvalues, i.e. descending by value with ties kept in
ascending original index order, applied to the eigenvalues and the
eigenvector columns.  Reference definition built from the spec's words, to be
compared against sortEigs, which embeds the code. -/
def specSortEigs (eig : List ℚ) (eigv : List (List ℚ)) : List ℚ × List (List ℚ) :=
  let p := argsortBy
    (fun i j => decide (eig.getD j 0 < eig.getD i 0 ∨
      (eig.getD i 0 = eig.getD j 0 ∧ i ≤ j))) eig.length
  (p.map (fun i => eig.getD i 0), eigv.map (fun row => p.map (fun i => row.getD i 0)))

section ArgsortLemmas

/-- Membership in an insertion step. -/
theorem mem_argInsert (r : ℕ → ℕ → Bool) (i : ℕ) (js : List ℕ) (x : ℕ) :
    x ∈ argInsert r i js ↔ x = i ∨ x ∈ js := by
  induction js with
  | nil => simp [argInsert]
  | cons j js ih =>
    simp only [argInsert]
    split
    · simp [List.mem_cons]
    · simp [List.mem_cons, ih]
      tauto

/-- An insertion step adds one element. -/
theorem length_argInsert (r : ℕ → ℕ → Bool) (i : ℕ) (js : List ℕ) :
    (argInsert r i js).length = js.length + 1 := by
  induction js with
  | nil => simp [argInsert]
  | cons j js ih =>
    simp only [argInsert]
    split <;> simp [ih]

/-- An argsort of n indices has n entries. -/
theorem length_argsortBy (r : ℕ → ℕ → Bool) (n : ℕ) :
    (argsortBy r n).length = n := by
  have hgen : ∀ L : List ℕ, (L.foldr (argInsert r) []).length = L.length := by
    intro L
    induction L with
    | nil => rfl
    | cons a L ih => simp [List.foldr_cons, length_argInsert, ih]
  simpa [argsortBy] using hgen (List.range n)

/-- Inserting into a list ordered by a total transitive relation keeps it
ordered. -/
theorem pairwise_argInsert (r : ℕ → ℕ → Bool)
    (htot : ∀ a b, r a b = true ∨ r b a = true)
    (htrans : ∀ a b c, r a b = true → r b c = true → r a c = true)
    (i : ℕ) (js : List ℕ) (h : js.Pairwise (fun a b => r a b = true)) :
    (argInsert r i js).Pairwise (fun a b => r a b = true) := by
  induction js with
  | nil => simp [argInsert]
  | cons j js ih =>
    rw [List.pairwise_cons] at h
    simp only [argInsert]
    split
    · rename_i hrij
      rw [List.pairwise_cons]
      refine ⟨?_, List.pairwise_cons.mpr h⟩
      intro x hx
      rcases List.mem_cons.mp hx with rfl | hx
      · exact hrij
      · exact htrans i j x hrij (h.1 x hx)
    · rename_i hne
      have hrji : r j i = true := by
        rcases htot i j with hij | hji
        · exact absurd hij (by simpa using hne)
        · exact hji
      rw [List.pairwise_cons]
      refine ⟨?_, ih h.2⟩
      intro x hx
      rcases (mem_argInsert r i js x).mp hx with rfl | hx
      · exact hrji
      · exact h.1 x hx

/-- An insertion argsort by a total transitive relation is ordered by it. -/
theorem pairwise_argsortBy (r : ℕ → ℕ → Bool)
    (htot : ∀ a b, r a b = true ∨ r b a = true)
    (htrans : ∀ a b c, r a b = true → r b c = true → r a c = true)
    (n : ℕ) : (argsortBy r n).Pairwise (fun a b => r a b = true) := by
  unfold argsortBy
  generalize (List.range n) = L
  induction L with
  | nil => simp
  | cons a L ih =>
    exact pairwise_argInsert r htot htrans a _ ih

/-- The stable ascending comparison is total. -/
theorem argLe_total (l : List ℚ) (a b : ℕ) : argLe l a b = true ∨ argLe l b a = true := by
  simp only [argLe, decide_eq_true_eq]
  rcases lt_trichotomy (l.getD a 0) (l.getD b 0) with h | h | h
  · exact Or.inl (Or.inl h)
  · rcases Nat.le_total a b with hab | hba
    · exact Or.inl (Or.inr ⟨h, hab⟩)
    · exact Or.inr (Or.inr ⟨h.symm, hba⟩)
  · exact Or.inr (Or.inl h)

/-- The stable ascending comparison is transitive. -/
theorem argLe_trans (l : List ℚ) (a b c : ℕ) (h1 : argLe l a b = true)
    (h2 : argLe l b c = true) : argLe l a c = true := by
  simp only [argLe, decide_eq_true_eq] at h1 h2 ⊢
  rcases h1 with h1 | ⟨h1e, h1i⟩ <;> rcases h2 with h2 | ⟨h2e, h2i⟩
  · exact Or.inl (h1.trans h2)
  · exact Or.inl (lt_of_lt_of_le h1 (le_of_eq h2e))
  · exact Or.inl (lt_of_le_of_lt (le_of_eq h1e) h2)
  · exact Or.inr ⟨h1e.trans h2e, h1i.trans h2i⟩

end ArgsortLemmas

section SortEigsClaims

/-- C2 amended: the reordered eigenvalue list produced by the sorting step of
lfca is non-increasing for every eigensolver output; but when two eigenvalues
are equal the corresponding eigenvectors end up ordered by DESCENDING original
solver index, because the code reverses an ascending argsort, which flips tie
order relative to the stable-sort-on-negated-eigenvalues rule the spec
states. -/
theorem sortEigs_descending_ties_reversed (eig : List ℚ) (eigv : List (List ℚ)) :
    List.Pairwise (· ≥ ·) (sortEigs eig eigv).1 ∧
    List.Pairwise (fun i j => eig.getD j 0 < eig.getD i 0 ∨
      (eig.getD i 0 = eig.getD j 0 ∧ j ≤ i)) ((argsortQ eig).reverse) := by
  have hpw : (argsortQ eig).Pairwise (fun a b => argLe eig a b = true) :=
    pairwise_argsortBy _ (argLe_total eig) (argLe_trans eig) _
  have hpw2 : (argsortQ eig).reverse.Pairwise (fun i j => eig.getD j 0 < eig.getD i 0 ∨
      (eig.getD i 0 = eig.getD j 0 ∧ j ≤ i)) := by
    rw [List.pairwise_reverse]
    refine hpw.imp ?_
    intro a b hab
    simp only [argLe, decide_eq_true_eq] at hab
    rcases hab with h | ⟨he, hi⟩
    · exact Or.inl h
    · exact Or.inr ⟨he.symm, hi⟩
  refine ⟨?_, hpw2⟩
  show (((argsortQ eig).reverse).map (fun i => eig.getD i 0)).Pairwise (· ≥ ·)
  refine List.Pairwise.map _ ?_ hpw2
  intro a b hab
  rcases hab with h | ⟨h, _⟩
  · exact le_of_lt h
  · exact le_of_eq h.symm

/-- C2 counterexample: on the tied eigenvalue pair [1, 1] with eigenvector
columns [5, 6] and [7, 8], the code's reordering (sortEigs) puts the column of
original index 1 first, while the spec's stable sort on negated eigenvalues
(specSortEigs) keeps original index 0 first: the tie-breaking direction of the
claim is refuted. -/
theorem sortEigs_not_spec_stable_counterexample :
    sortEigs [1, 1] [[5, 7], [6, 8]] = ([1, 1], [[7, 5], [8, 6]]) ∧
    specSortEigs [1, 1] [[5, 7], [6, 8]] = ([1, 1], [[5, 7], [6, 8]]) ∧
    sortEigs [1, 1] [[5, 7], [6, 8]] ≠ specSortEigs [1, 1] [[5, 7], [6, 8]] := by
  refine ⟨?_, ?_, ?_⟩
  · norm_num [sortEigs, argsortQ, argsortBy, argInsert, argLe, List.range_succ]
  · norm_num [specSortEigs, argsortBy, argInsert, List.range_succ]
  · norm_num [sortEigs, specSortEigs, argsortQ, argsortBy, argInsert, argLe,
      List.range_succ]

end SortEigsClaims

/-- The external numeric facilities lfca uses, bundled as oracle parameters:
np.sin and np.pi (through low_pass_weights), np.sqrt (for the scale vector),
np.polyfit/np.poly1d (through filter_padding), the scipy butter+filtfilt
pipeline (through filter_ts), the eofs.standard.Eof object's pcs method
(pcscaling=1) and eofs method at eofscaling=1 and eofscaling=2 (as functions
of the data matrix the Eof object was built from and the truncation), and
np.linalg.eigh (eigenvalues with their eigenvector-column matrix). -/
structure LfcaOracles where
  sin : ℚ → ℚ
  pi : ℚ
  sqrt : ℚ → ℚ
  polyfit : List ℚ → ℕ → (ℚ → ℚ)
  butterFiltfilt : ℚ → List ℚ → List ℚ
  pcs : List (List ℚ) → ℕ → List (List ℚ)
  eofs1 : List (List ℚ) → ℕ → List (List ℚ)
  eofs2 : List (List ℚ) → ℕ → List (List ℚ)
  eigh : List (List ℚ) → List ℚ × List (List ℚ)

/-- Negate column j of a matrix (numpy m[:, j] = -m[:, j]). -/
def negCol (m : List (List ℚ)) (j : ℕ) : List (List ℚ) :=
  m.map (fun r => r.set j (-(r.getD j 0)))

/-- One iteration of the sign-convention loop of lfca:
  if np.dot(lfps[:,j], scale.flatten())<0:
      lfps[:,j] = -lfps[:,j]; lfcs[:,j] = -lfcs[:,j] -/
def signStep (scale : List ℚ) (p : List (List ℚ) × List (List ℚ)) (j : ℕ) :
    List (List ℚ) × List (List ℚ) :=
  if dotQ (colj p.1 j) scale < 0 then (negCol p.1 j, negCol p.2 j) else p

/-- The sign-convention loop of lfca, for j in range(lfps.shape[1]). -/
def signFix (scale : List ℚ) (lfps lfcs : List (List ℚ)) :
    List (List ℚ) × List (List ℚ) :=
  (List.range (ncols lfps)).foldl (signStep scale) (lfps, lfcs)

/-- Embedding of lfca(x, cutoff, truncation, weights, kwargs) from the
notebook.

Source:
  scale = np.sqrt(np.transpose(weights)/np.sum(weights))
  x = x - np.mean(x,axis=0)
  xs = x * scale.T
  eofs_xr=Eof(xs.values, center=False, ddof=1)
  pcs=eofs_xr.pcs(npcs=truncation, pcscaling=1)
  pcs_filt=np.zeros(pcs.shape)
  for i in range(truncation):
      pcs_filt[:,i]=filter_ts(pcs[:,i], cutoff, kwargs)[:]
  cov_lowfreq=np.cov(pcs_filt,rowvar=False)
  eig_lowfreq, eigv_lowfreq = np.linalg.eigh(cov_lowfreq)
  (descending reorder, embedded as sortEigs)
  uvec=eofs_xr.eofs(neofs=truncation, eofscaling=1).T@eigv_lowfreq
  lfcs = np.dot(xs, uvec)
  lfps=eofs_xr.eofs(neofs=truncation, eofscaling=2).T@eigv_lowfreq
  (sign loop, embedded as signFix)
  lfps=lfps/scale
  lfps = np.transpose(lfps)
  return lfcs, lfps

The weight vector is 1-D here (the notebook's (1, N) array transposed and
broadcast); scale_i = sqrt(w_i / sum w).  The x.ndim != 2 check cannot fire in
this embedding because a List (List _) is a 2-D value by construction.  The
pcs_filt column assignments are represented by filtering each pcs column and
transposing the resulting list of columns; any ValueError of filter_ts aborts
lfca exactly as a raised exception unwinds the Python loop.  lfps is carried
in the source's N x K row-major layout until the final transpose.

Two caveats where this exact-arithmetic embedding is coarser than the
source's float semantics, and how the theorems below account for them:
the final rescale lfps/scale divides with the total division of ℚ, where
a / 0 = 0, while the source produces a non-finite float (inf, or nan for a
zero numerator) at a zero scale entry — so every theorem about the rescaled
output restricts to weight vectors whose entries are all positive (making
every scale entry nonzero in the source), and the zero-entry divergence is
exhibited by a dedicated counterexample; and colj reads an absent pcs
column as a column of zeros, while numpy's pcs[:, i] raises IndexError when
the solver returned fewer than truncation columns — so the shape theorems
carry the documented pcs shape contract as a hypothesis.  Furthermore this
ℚ model is NaN-free: a degenerate all-zero weight vector, whose scale is
nan = sqrt(0/0) in the source and propagates to an all-nan xs that makes
the Eof constructor raise before pcs is ever read, is modelled separately
under explicit float semantics by floatScale, floatXs and eofEntry at the
end of this file, not by the run below. -/
def lfcaPost (O : LfcaOracles) (xs : List (List ℚ)) (scale : List ℚ)
    (truncation : ℕ) (cols : List (List ℚ)) : List (List ℚ) × List (List ℚ) :=
  let pcs_filt := transposeM cols
  let cov_lowfreq := covQ pcs_filt
  let el := O.eigh cov_lowfreq
  let es := sortEigs el.1 el.2
  let uvec := matMul (transposeM (O.eofs1 xs truncation)) es.2
  let lfcs := matMul xs uvec
  let lfps := matMul (transposeM (O.eofs2 xs truncation)) es.2
  let fl := signFix scale lfps lfcs
  let lfpsR := List.zipWith (fun row si => row.map (fun a => a / si)) fl.1 scale
  (fl.2, transposeM lfpsR)

/-- The lfca run: scale and xs as in the source, the filtering loop, then the
post-processing tail lfcaPost.  The caveats on lfcaPost about ℚ's total
division, colj on a missing column, and the NaN-free treatment of an all-zero
weight vector apply to this run as a whole. -/
def lfca (O : LfcaOracles) (x : List (List ℚ)) (cutoff : ℤ) (truncation : ℕ)
    (weights : List ℚ) (filter_type padding_type : String) (detrend : Bool)
    (detrend_poly : ℕ) : Except PyRuntimeError (List (List ℚ) × List (List ℚ)) := do
  let scale := weights.map (fun wi => O.sqrt (wi / weights.sum))
  let xc := centerCols x
  let xs := xc.map (fun r => List.zipWith (· * ·) r scale)
  let pcs := O.pcs xs truncation
  let cols ← (List.range truncation).mapM (fun i =>
    filter_ts O.sin O.pi O.polyfit O.butterFiltfilt (colj pcs i) cutoff
      filter_type padding_type detrend detrend_poly)
  return lfcaPost O xs scale truncation cols

/-- The mapM of lfca over the principal-component columns, named for reuse in
statements about the run.  colj reads a column index at or beyond the pcs
width as a column of zeros, where numpy's pcs[:, i] raises IndexError; the
theorems that depend on the column contents therefore carry the documented
pcs shape contract (truncation columns) as a hypothesis. -/
def lfcaCols (O : LfcaOracles) (x : List (List ℚ)) (cutoff : ℤ) (truncation : ℕ)
    (weights : List ℚ) (filter_type padding_type : String) (detrend : Bool)
    (detrend_poly : ℕ) : Except PyRuntimeError (List (List ℚ)) :=
  (List.range truncation).mapM (fun i =>
    filter_ts O.sin O.pi O.polyfit O.butterFiltfilt
      (colj (O.pcs ((centerCols x).map (fun r => List.zipWith (· * ·) r
        (weights.map (fun wi => O.sqrt (wi / weights.sum))))) truncation) i)
      cutoff filter_type padding_type detrend detrend_poly)

/-- lfca in terms of lfcaCols and lfcaPost. -/
theorem lfca_eq_cols_bind (O : LfcaOracles) (x : List (List ℚ)) (cutoff : ℤ)
    (truncation : ℕ) (w : List ℚ) (ft pt : String) (d : Bool) (dp : ℕ) :
    lfca O x cutoff truncation w ft pt d dp
      = (lfcaCols O x cutoff truncation w ft pt d dp).map
          (fun cols => lfcaPost O
            ((centerCols x).map (fun r => List.zipWith (· * ·) r
              (w.map (fun wi => O.sqrt (wi / w.sum)))))
            (w.map (fun wi => O.sqrt (wi / w.sum))) truncation cols) := by
  simp only [lfca, lfcaCols]
  cases hm : (List.range truncation).mapM (fun i =>
      filter_ts O.sin O.pi O.polyfit O.butterFiltfilt
        (colj (O.pcs ((centerCols x).map (fun r => List.zipWith (· * ·) r
          (w.map (fun wi => O.sqrt (wi / w.sum))))) truncation) i) cutoff ft pt d dp) with
  | error e => simp [Bind.bind, Except.bind, Except.map]
  | ok v => simp [Bind.bind, Except.bind, Except.map, pure, Except.pure]

/-- A concrete oracle bundle for evaluating lfca on small inputs: the zero
function for sine and sqrt, pi = 1, a zero polynomial fit, the identity for
the Butterworth pipeline, the identity for pcs, the 1 x 1 pattern matrix for
both eofs scalings, and a fixed 1 x 1 eigensolution. -/
def constOracles : LfcaOracles where
  sin := fun _ => 0
  pi := 1
  sqrt := fun _ => 0
  polyfit := fun _ _ => fun _ => 0
  butterFiltfilt := fun _ l => l
  pcs := fun m _ => m
  eofs1 := fun _ _ => [[1]]
  eofs2 := fun _ _ => [[1]]
  eigh := fun _ => ([1], [[1]])

/-- Adding a constant to every mapped element adds length-many copies to the
sum. -/
theorem sum_map_add_const {α : Type} (l : List α) (f : α → ℚ) (k : ℚ) :
    (l.map (fun a => f a + k)).sum = (l.map f).sum + l.length * k := by
  induction l with
  | nil => simp
  | cons a l ih =>
    simp [ih]
    ring

/-- colMeans has one entry per column. -/
theorem colMeans_length (m : List (List ℚ)) : (colMeans m).length = ncols m := by
  simp [colMeans, transposeM]

/-- Entry j of colMeans is the column sum over the row count. -/
theorem colMeans_getD (m : List (List ℚ)) (j : ℕ) (hj : j < ncols m) :
    (colMeans m).getD j 0 = (colj m j).sum / (m.length : ℚ) := by
  unfold colMeans transposeM
  rw [List.map_map, getD_map_of_lt _ _ 0 _ (by simpa), getD_range_of_lt hj]
  simp [Function.comp]

/-- Column-wise centering absorbs any per-column constant offset. -/
theorem centerCols_offset (x : List (List ℚ)) (c : List ℚ)
    (hx : ∀ r ∈ x, r.length = c.length) (hne : x ≠ []) :
    centerCols (x.map (fun r => List.zipWith (· + ·) r c)) = centerCols x := by
  have hN : ncols x = c.length := by
    cases x with
    | nil => exact absurd rfl hne
    | cons r xt => simpa [ncols] using hx r (List.mem_cons_self r xt)
  have hN' : ncols (x.map (fun r => List.zipWith (· + ·) r c)) = c.length := by
    cases x with
    | nil => exact absurd rfl hne
    | cons r xt =>
      have hr := hx r (List.mem_cons_self r xt)
      simp [ncols, hr]
  have hTne : ((x.length : ℚ)) ≠ 0 := by
    have := List.length_pos.mpr hne
    exact_mod_cast Nat.pos_iff_ne_zero.mp this
  have hcolj : ∀ j < c.length, colj (x.map (fun r => List.zipWith (· + ·) r c)) j
      = x.map (fun r => r.getD j 0 + c.getD j 0) := by
    intro j hj
    unfold colj
    rw [List.map_map]
    apply List.map_congr_left
    intro r hr
    simp only [Function.comp]
    exact getD_zipWith_of_lt _ _ _ 0 0 0 (by rw [hx r hr]; exact hj) hj
  have hmean : ∀ j < c.length,
      (colMeans (x.map (fun r => List.zipWith (· + ·) r c))).getD j 0
        = (colMeans x).getD j 0 + c.getD j 0 := by
    intro j hj
    rw [colMeans_getD _ _ (by rw [hN']; exact hj), colMeans_getD _ _ (by rw [hN]; exact hj),
      hcolj j hj]
    rw [sum_map_add_const, List.length_map]
    unfold colj
    field_simp
    ring
  unfold centerCols
  rw [List.map_map]
  apply List.map_congr_left
  intro r hr
  simp only [Function.comp]
  apply List.ext_getElem
  · simp [colMeans_length, hN, hN', hx r hr]
  · intro i h1 h2
    have hiN : i < c.length := by
      simp [colMeans_length, hN, hx r hr] at h2
      omega
    rw [List.getElem_zipWith, List.getElem_zipWith, List.getElem_zipWith]
    rw [← List.getD_eq_getElem (colMeans (x.map (fun r => List.zipWith (· + ·) r c))) 0
        (by simp at h1; omega),
      ← List.getD_eq_getElem (colMeans x) 0 (by simp at h2; omega),
      hmean i hiN]
    rw [List.getD_eq_getElem c 0 hiN]
    ring

/-- C7: lfca centers the data matrix column-wise itself, so its output is
invariant under any per-column constant offset of the input, for every oracle
bundle and every parameter setting. -/
theorem lfca_offset_invariant (O : LfcaOracles) (x : List (List ℚ)) (cutoff : ℤ)
    (truncation : ℕ) (c weights : List ℚ) (ft pt : String) (d : Bool) (dp : ℕ)
    (hx : ∀ r ∈ x, r.length = c.length) (hne : x ≠ []) :
    lfca O (x.map (fun r => List.zipWith (· + ·) r c)) cutoff truncation weights ft pt d dp
      = lfca O x cutoff truncation weights ft pt d dp := by
  simp only [lfca, centerCols_offset x c hx hne]

/-- Witness for C7 at a concrete 2 x 1 matrix and offset vector [10]. -/
theorem lfca_offset_invariant_witness :
    lfca constOracles ([[1], [2]].map (fun r => List.zipWith (· + ·) r [10])) 1 1 [1]
      "butter" "mirror" false 1
      = lfca constOracles [[1], [2]] 1 1 [1] "butter" "mirror" false 1 :=
  lfca_offset_invariant constOracles [[1], [2]] 1 1 [10] [1] "butter" "mirror" false 1
    (by intro r hr; simp at hr; rcases hr with rfl | rfl <;> rfl) (by simp)

/-- The transpose has one row per column. -/
theorem transposeM_length (m : List (List ℚ)) : (transposeM m).length = ncols m := by
  simp [transposeM]

/-- A rectangular row-major matrix with r rows and c columns. -/
def IsRect (m : List (List ℚ)) (r c : ℕ) : Prop :=
  m.length = r ∧ ∀ row ∈ m, row.length = c

/-- A non-empty rectangular matrix has its declared column count. -/
theorem ncols_of_isRect {m : List (List ℚ)} {r c : ℕ} (h : IsRect m r c) (hr : 0 < r) :
    ncols m = c := by
  obtain ⟨hlen, hrow⟩ := h
  cases m with
  | nil => simp at hlen; omega
  | cons a t => simpa [ncols] using hrow a (List.mem_cons_self a t)

/-- A column has one entry per row. -/
theorem colj_length (m : List (List ℚ)) (j : ℕ) : (colj m j).length = m.length := by
  simp [colj]

/-- Transposing a non-empty rectangle swaps its dimensions. -/
theorem transposeM_isRect {m : List (List ℚ)} {r c : ℕ} (h : IsRect m r c) (hr : 0 < r) :
    IsRect (transposeM m) c r := by
  constructor
  · rw [transposeM_length, ncols_of_isRect h hr]
  · intro row hrow
    unfold transposeM at hrow
    rcases List.mem_map.mp hrow with ⟨j, _, rfl⟩
    rw [colj_length, h.1]

/-- A matrix product of compatible rectangles is a rectangle. -/
theorem matMul_isRect {a b : List (List ℚ)} {r n n2 c : ℕ}
    (ha : IsRect a r n) (hb : IsRect b n2 c) (hn2 : 0 < n2) :
    IsRect (matMul a b) r c := by
  constructor
  · simp [matMul, ha.1]
  · intro row hrow
    unfold matMul at hrow
    rcases List.mem_map.mp hrow with ⟨q, _, rfl⟩
    rw [List.length_map, transposeM_length, ncols_of_isRect hb hn2]

/-- Column-wise centering keeps the shape. -/
theorem centerCols_isRect {m : List (List ℚ)} {r c : ℕ} (h : IsRect m r c) :
    IsRect (centerCols m) r c := by
  constructor
  · simp [centerCols, h.1]
  · intro row hrow
    unfold centerCols at hrow
    rcases List.mem_map.mp hrow with ⟨q, hq, rfl⟩
    have hm : m ≠ [] := by
      intro he
      rw [he] at hq
      exact absurd hq (List.not_mem_nil q)
    have hr : 0 < r := by
      have := h.1
      cases m with
      | nil => exact absurd rfl hm
      | cons a t => simp at this; omega
    rw [List.length_zipWith, colMeans_length, ncols_of_isRect h hr, h.2 q hq]
    omega

/-- Row-wise multiplication by a matching-length scale keeps the shape. -/
theorem mul_scale_isRect {m : List (List ℚ)} {r c : ℕ} {s : List ℚ}
    (h : IsRect m r c) (hs : s.length = c) :
    IsRect (m.map (fun q => List.zipWith (· * ·) q s)) r c := by
  constructor
  · simp [h.1]
  · intro row hrow
    rcases List.mem_map.mp hrow with ⟨q, hq, rfl⟩
    rw [List.length_zipWith, h.2 q hq, hs]
    omega

/-- The sample covariance of a non-empty T x K matrix is K x K. -/
theorem covQ_isRect {m : List (List ℚ)} {t k : ℕ} (h : IsRect m t k) (ht : 0 < t) :
    IsRect (covQ m) k k := by
  have hy : IsRect (centerCols m) t k := centerCols_isRect h
  have hnc : ncols (centerCols m) = k := ncols_of_isRect hy ht
  constructor
  · simp [covQ, transposeM_length, hnc]
  · intro row hrow
    simp only [covQ] at hrow
    rcases List.mem_map.mp hrow with ⟨q, _, rfl⟩
    simp [transposeM_length, hnc]

/-- The eigen reorder keeps a square eigenvector matrix square. -/
theorem sortEigs_isRect {eig : List ℚ} {eigv : List (List ℚ)} {k : ℕ}
    (hlen : eig.length = k) (hv : eigv.length = k) :
    IsRect (sortEigs eig eigv).2 k k := by
  constructor
  · simp [sortEigs, hv]
  · intro row hrow
    simp only [sortEigs] at hrow
    rcases List.mem_map.mp hrow with ⟨q, _, rfl⟩
    simp [argsortQ, length_argsortBy, hlen]

/-- Negating a column keeps the shape. -/
theorem negCol_isRect {m : List (List ℚ)} {r c : ℕ} (h : IsRect m r c) (j : ℕ) :
    IsRect (negCol m j) r c := by
  constructor
  · simp [negCol, h.1]
  · intro row hrow
    rcases List.mem_map.mp hrow with ⟨q, hq, rfl⟩
    simp [h.2 q hq]

/-- The sign loop keeps the shapes of both matrices. -/
theorem signFix_isRect {lfps lfcs : List (List ℚ)} {n k t k2 : ℕ} (scale : List ℚ)
    (h1 : IsRect lfps n k) (h2 : IsRect lfcs t k2) :
    IsRect (signFix scale lfps lfcs).1 n k ∧ IsRect (signFix scale lfps lfcs).2 t k2 := by
  unfold signFix
  generalize List.range (ncols lfps) = L
  induction L generalizing lfps lfcs with
  | nil => exact ⟨h1, h2⟩
  | cons a L ih =>
    rw [List.foldl_cons]
    unfold signStep
    split
    · exact ih (negCol_isRect h1 a) (negCol_isRect h2 a)
    · exact ih h1 h2

/-- A successful mapM yields one output per index, each satisfying any
property guaranteed by the successful calls. -/
theorem mapM_ok_forall {ε α : Type} (f : ℕ → Except ε α) (L : List ℕ) (out : List α)
    (h : L.mapM f = .ok out) (P : α → Prop) (hP : ∀ i ∈ L, ∀ a, f i = .ok a → P a) :
    out.length = L.length ∧ ∀ a ∈ out, P a := by
  induction L generalizing out with
  | nil =>
    simp only [List.mapM_nil, pure, Except.pure, Except.ok.injEq] at h
    subst h
    simp
  | cons i L ih =>
    rw [List.mapM_cons] at h
    cases hfi : f i with
    | error e =>
      rw [hfi] at h
      exact absurd h (by simp [Bind.bind, Except.bind])
    | ok a =>
      rw [hfi] at h
      simp only [Bind.bind, Except.bind] at h
      cases hm : L.mapM f with
      | error e =>
        rw [hm] at h
        exact absurd h (by simp)
      | ok as =>
        rw [hm] at h
        simp only [pure, Except.pure, Except.ok.injEq] at h
        subst h
        have hrest := ih as hm (fun j hj => hP j (List.mem_cons_of_mem i hj))
        refine ⟨by simp [hrest.1], ?_⟩
        intro b hb
        rcases List.mem_cons.mp hb with rfl | hb
        · exact hP i (List.mem_cons_self i L) b hfi
        · exact hrest.2 b hb

/-- Row-rescaling against a matching-length scale vector keeps the shape. -/
theorem rescale_isRect {m : List (List ℚ)} {n k : ℕ} {s : List ℚ}
    (h : IsRect m n k) (hs : s.length = n) :
    IsRect (List.zipWith (fun row si => row.map (fun a => a / si)) m s) n k := by
  constructor
  · rw [List.length_zipWith, h.1, hs]
    omega
  · intro row hrow
    rcases List.mem_iff_getElem.mp hrow with ⟨i, hi, heq⟩
    rw [List.getElem_zipWith] at heq
    rw [← heq, List.length_map]
    exact h.2 _ (List.getElem_mem _)

/-- C3: for every successful lfca run on a T x N data matrix with a length-N
weight vector and truncation K (all positive), the returned LFC is T x K and
the returned LFP is K x N, given the library shape contracts: one pcs row
per time step with K columns, K-row eofs patterns over the spatial columns,
eigh returning a square eigenvector matrix with matching eigenvalues, and
length preservation of the Butterworth filtfilt. -/
theorem lfca_shapes (O : LfcaOracles) (x : List (List ℚ)) (cutoff : ℤ)
    (truncation : ℕ) (weights : List ℚ) (ft pt : String) (d : Bool) (dp : ℕ)
    (T N : ℕ)
    (hx : IsRect x T N) (hT : 0 < T) (hN : 0 < N) (hK : 0 < truncation)
    (hw : weights.length = N)
    (hpcs : ∀ m k, IsRect (O.pcs m k) m.length k)
    (heofs1 : ∀ m k, IsRect (O.eofs1 m k) k (ncols m))
    (heofs2 : ∀ m k, IsRect (O.eofs2 m k) k (ncols m))
    (heigh : ∀ m, (O.eigh m).1.length = m.length ∧ IsRect (O.eigh m).2 m.length m.length)
    (hbf : ∀ cq l, (O.butterFiltfilt cq l).length = l.length)
    (lfcs lfps : List (List ℚ))
    (hok : lfca O x cutoff truncation weights ft pt d dp = .ok (lfcs, lfps)) :
    IsRect lfcs T truncation ∧ IsRect lfps truncation N := by
  rw [lfca_eq_cols_bind] at hok
  cases hm : lfcaCols O x cutoff truncation weights ft pt d dp with
  | error e =>
    rw [hm] at hok
    exact absurd hok (by simp [Except.map])
  | ok cols =>
    rw [hm] at hok
    simp only [Except.map, Except.ok.injEq] at hok
    set scale := weights.map (fun wi => O.sqrt (wi / weights.sum)) with hscdef
    have hsc : scale.length = N := by simp [hscdef, hw]
    set xs := (centerCols x).map (fun r => List.zipWith (· * ·) r scale) with hxsdef
    have hxs : IsRect xs T N := mul_scale_isRect (centerCols_isRect hx) hsc
    have hxsn : ncols xs = N := ncols_of_isRect hxs hT
    have hxslen : xs.length = T := hxs.1
    -- the filtered columns
    have hcolsrect : IsRect cols truncation T := by
      have hp := hpcs xs truncation
      have hcall := mapM_ok_forall _ _ cols hm (fun a => a.length = T) ?_
      · exact ⟨by simp [hcall.1], hcall.2⟩
      · intro i _ a hfa
        have := filter_ts_length_of_ok O.sin O.pi O.polyfit O.butterFiltfilt
          (colj (O.pcs xs truncation) i) cutoff ft pt d dp hbf a hfa
        rw [this, colj_length, hp.1, hxslen]
    have hfiltrect : IsRect (transposeM cols) T truncation :=
      transposeM_isRect hcolsrect hK
    have hcov : IsRect (covQ (transposeM cols)) truncation truncation :=
      covQ_isRect hfiltrect hT
    have heig := heigh (covQ (transposeM cols))
    have heigv : IsRect (sortEigs (O.eigh (covQ (transposeM cols))).1
        (O.eigh (covQ (transposeM cols))).2).2 truncation truncation := by
      apply sortEigs_isRect
      · rw [heig.1, hcov.1]
      · rw [(heig.2).1, hcov.1]
    have htr1 : IsRect (transposeM (O.eofs1 xs truncation)) N truncation := by
      have h1 := heofs1 xs truncation
      rw [hxsn] at h1
      exact transposeM_isRect h1 hK
    have htr2 : IsRect (transposeM (O.eofs2 xs truncation)) N truncation := by
      have h2 := heofs2 xs truncation
      rw [hxsn] at h2
      exact transposeM_isRect h2 hK
    have huvec : IsRect (matMul (transposeM (O.eofs1 xs truncation))
        (sortEigs (O.eigh (covQ (transposeM cols))).1
          (O.eigh (covQ (transposeM cols))).2).2) N truncation :=
      matMul_isRect htr1 heigv hK
    have hlfcs0 : IsRect (matMul xs (matMul (transposeM (O.eofs1 xs truncation))
        (sortEigs (O.eigh (covQ (transposeM cols))).1
          (O.eigh (covQ (transposeM cols))).2).2)) T truncation :=
      matMul_isRect hxs huvec hN
    have hlfps0 : IsRect (matMul (transposeM (O.eofs2 xs truncation))
        (sortEigs (O.eigh (covQ (transposeM cols))).1
          (O.eigh (covQ (transposeM cols))).2).2) N truncation :=
      matMul_isRect htr2 heigv hK
    have hfl := signFix_isRect scale hlfps0 hlfcs0
    have hlfpsR : IsRect (List.zipWith (fun row si => row.map (fun a => a / si))
        (signFix scale (matMul (transposeM (O.eofs2 xs truncation))
          (sortEigs (O.eigh (covQ (transposeM cols))).1
            (O.eigh (covQ (transposeM cols))).2).2)
          (matMul xs (matMul (transposeM (O.eofs1 xs truncation))
            (sortEigs (O.eigh (covQ (transposeM cols))).1
              (O.eigh (covQ (transposeM cols))).2).2))).1 scale) N truncation :=
      rescale_isRect hfl.1 hsc
    simp only [lfcaPost] at hok
    injection hok with hc hp
    exact ⟨hc ▸ hfl.2, hp ▸ transposeM_isRect hlfpsR hN⟩

/-- A concrete oracle bundle obeying the library shape contracts: pcs returns
one zero row of the requested width per time step, the eofs scalings return
the requested number of zero patterns over the spatial columns, and eigh
returns a square zero eigensolution. -/
def shapeOracles : LfcaOracles where
  sin := fun _ => 0
  pi := 1
  sqrt := fun _ => 0
  polyfit := fun _ _ => fun _ => 0
  butterFiltfilt := fun _ l => l
  pcs := fun m k => m.map (fun _ => List.replicate k 0)
  eofs1 := fun m k => List.replicate k (List.replicate (ncols m) 0)
  eofs2 := fun m k => List.replicate k (List.replicate (ncols m) 0)
  eigh := fun m => (List.replicate m.length 0, m.map (fun _ => List.replicate m.length 0))

/-- Witness for C3: a concrete successful 2 x 1 run with truncation 1 whose
outputs are 2 x 1 and 1 x 1. -/
theorem lfca_shapes_witness :
    lfca shapeOracles [[1], [2]] 1 1 [1] "butter" "mirror" false 1
      = .ok ([[0], [0]], [[0]]) ∧
    IsRect [[0], [0]] 2 1 ∧ IsRect [[0]] 1 1 := by
  have hw : low_pass_weights (fun _ => (0:ℚ)) 1 ((1:ℤ) * 2 + 1) (1 / ((1:ℤ):ℚ))
      = some [0, 2, 0] := by
    norm_num [low_pass_weights, Int.fdiv]
    rfl
  have hxc : centerCols [[(1:ℚ)], [2]] = [[-(1/2)], [1/2]] := by
    norm_num [centerCols, colMeans, transposeM, ncols, colj, List.range_succ,
      Function.comp, List.getD_cons_zero]
  have hpad : filter_padding (fun _ _ => (fun _ => (0:ℚ))) [0, 0] 2 "mirror" false 1
      = .ok [0, 0, 0, 0, 0, 0] := by
    norm_num [filter_padding]
  have hfilt : filter_ts (fun _ => (0:ℚ)) 1 (fun _ _ => fun _ => (0:ℚ)) (fun _ l => l)
      [0, 0] 1 "butter" "mirror" false 1 = .ok [0, 0] := by
    simp only [filter_ts, hw]
    norm_num [hpad, Bind.bind, Except.bind, pySliceTrim]
    rfl
  have hcols : lfcaCols shapeOracles [[1], [2]] 1 1 [1] "butter" "mirror" false 1
      = .ok [[0, 0]] := by
    simp only [lfcaCols, shapeOracles, hxc]
    norm_num [List.range_succ, colj, List.getD_cons_zero, List.mapM, List.mapM.loop,
      List.replicate, hfilt, Bind.bind, Except.bind, pure, Except.pure]
  have hok : lfca shapeOracles [[1], [2]] 1 1 [1] "butter" "mirror" false 1
      = .ok ([[0], [0]], [[0]]) := by
    rw [lfca_eq_cols_bind, hcols]
    simp only [Except.map]
    norm_num [lfcaPost, shapeOracles, hxc, transposeM, ncols, colj, covQ,
      centerCols, colMeans, dotQ, matMul, sortEigs, argsortQ, argsortBy, argInsert,
      argLe, signFix, signStep, negCol, List.range_succ, Function.comp,
      List.getD_cons_zero, List.replicate]
  refine ⟨hok, ?_⟩
  refine lfca_shapes shapeOracles [[1], [2]] 1 1 [1] "butter" "mirror" false 1 2 1
    ?_ (by norm_num) (by norm_num) (by norm_num) (by norm_num)
    ?_ ?_ ?_ ?_ (fun _ _ => rfl) [[0], [0]] [[0]] hok
  · refine ⟨rfl, ?_⟩
    intro row h
    simp at h
    rcases h with rfl | rfl <;> rfl
  · intro m k
    refine ⟨by simp [shapeOracles], ?_⟩
    intro row h
    simp only [shapeOracles] at h
    rcases List.mem_map.mp h with ⟨q, _, rfl⟩
    simp
  · intro m k
    refine ⟨by simp [shapeOracles], ?_⟩
    intro row h
    simp only [shapeOracles] at h
    rw [List.eq_of_mem_replicate h]
    simp
  · intro m k
    refine ⟨by simp [shapeOracles], ?_⟩
    intro row h
    simp only [shapeOracles] at h
    rw [List.eq_of_mem_replicate h]
    simp
  · intro m
    refine ⟨by simp [shapeOracles], by simp [shapeOracles], ?_⟩
    intro row h
    simp only [shapeOracles] at h
    rcases List.mem_map.mp h with ⟨q, _, rfl⟩
    simp

/-- IEEE-flavoured scalars for the weight-degeneracy path of lfca: some q is
a finite float value (modelled exactly in ℚ), none is a non-finite value (NaN
or an infinity).  Only the absorption rules needed on this path are encoded:
a product with a non-finite operand is non-finite (NaN times anything is NaN,
and the path below only multiplies NaN), division by zero is non-finite
(0/0 is NaN; x/0 is an infinity), and the square root of a non-finite or
negative value is NaN. -/
def nanMul : Option ℚ → Option ℚ → Option ℚ
  | some a, some b => some (a * b)
  | _, _ => none

/-- Division with the float zero-denominator behaviour folded to none. -/
def nanDiv : Option ℚ → Option ℚ → Option ℚ
  | some a, some b => if b = 0 then none else some (a / b)
  | _, _ => none

/-- Square root with NaN for non-finite or negative inputs, the finite
positive values delegated to the sqrt oracle. -/
def nanSqrt (sqrtO : ℚ → ℚ) : Option ℚ → Option ℚ
  | some a => if a < 0 then none else some (sqrtO a)
  | none => none

/-- The scale vector scale = np.sqrt(np.transpose(weights)/np.sum(weights))
of lfca under float semantics: with an all-zero weight vector every entry is
sqrt(0/0), a NaN. -/
def floatScale (sqrtO : ℚ → ℚ) (weights : List ℚ) : List (Option ℚ) :=
  weights.map (fun wi => nanSqrt sqrtO (nanDiv (some wi) (some weights.sum)))

/-- The weighted data matrix xs = (x - np.mean(x,axis=0)) * scale.T of lfca
under float semantics: the centering involves only the (finite, NaN-free)
data matrix and is computed exactly, then each row is multiplied entrywise by
the float scale vector. -/
def floatXs (sqrtO : ℚ → ℚ) (x : List (List ℚ)) (weights : List ℚ) :
    List (List (Option ℚ)) :=
  (centerCols x).map (fun r => List.zipWith nanMul (r.map some) (floatScale sqrtO weights))

/-- Modelled from the eofs library contract (an external collaborator of this
repository): eofs.standard.Eof(data) raises ValueError("all input data is
missing") in its constructor when every entry of the input is missing (NaN),
before any principal component is computed.  This is the very next statement
of lfca after xs is formed (Eof(xs.values, center=False, ddof=1)), so when it
raises, lfca produces no output. -/
def eofEntry (xsF : List (List (Option ℚ))) : Except PyRuntimeError Unit :=
  if xsF.all (fun row => row.all (fun v => v = none))
  then .error (.valueError "all input data is missing")
  else .ok ()

/-- A non-finite right operand absorbs a product. -/
theorem nanMul_none (a : Option ℚ) : nanMul a none = none := by
  cases a <;> rfl

/-- C4: calling lfca with an all-zero weight vector raises a ValueError and
produces no output, for every data matrix and every cutoff and truncation:
the scale vector is sqrt(0/0) = NaN in every entry, every entry of the
weighted matrix xs handed to Eof is therefore NaN, and the eofs constructor
rejects an all-missing input before any principal component, filtering, or
output is computed (the cutoff and truncation are never read). -/
theorem lfca_zero_weights_raises (sqrtO : ℚ → ℚ) (x : List (List ℚ))
    (weights : List ℚ) (hzero : ∀ w ∈ weights, w = 0) :
    eofEntry (floatXs sqrtO x weights)
      = .error (.valueError "all input data is missing") := by
  have hsum : weights.sum = 0 := List.sum_eq_zero hzero
  have hscale : ∀ v ∈ floatScale sqrtO weights, v = none := by
    intro v hv
    rcases List.mem_map.mp hv with ⟨w, hw, rfl⟩
    simp [nanDiv, hsum, nanSqrt]
  unfold eofEntry
  rw [if_pos]
  rw [List.all_eq_true]
  intro row hrow
  rw [List.all_eq_true]
  intro v hv
  rcases List.mem_map.mp hrow with ⟨r, _, rfl⟩
  rcases List.mem_iff_getElem.mp hv with ⟨i, hi, heq⟩
  rw [List.getElem_zipWith] at heq
  have hilen : i < (floatScale sqrtO weights).length := by
    simp at hi; omega
  have hsc : (floatScale sqrtO weights)[i] = none := by
    apply hscale
    exact List.getElem_mem _
  rw [hsc, nanMul_none] at heq
  simp [← heq]

/-- Witness for C4 at a concrete 2 x 1 matrix with the all-zero weight
vector. -/
theorem lfca_zero_weights_raises_witness :
    eofEntry (floatXs (fun _ => 0) [[1], [2]] [0])
      = .error (.valueError "all input data is missing") :=
  lfca_zero_weights_raises (fun _ => 0) [[1], [2]] [0] (by intro w hw; simpa using hw)

/-- The sign-fixed pattern matrix of the lfca tail just before the final
rescale lfps = lfps/scale, from the same source lines as lfcaPost. -/
def lfcaPreRescale (O : LfcaOracles) (xs : List (List ℚ)) (scale : List ℚ)
    (truncation : ℕ) (cols : List (List ℚ)) : List (List ℚ) :=
  let pcs_filt := transposeM cols
  let cov_lowfreq := covQ pcs_filt
  let el := O.eigh cov_lowfreq
  let es := sortEigs el.1 el.2
  let uvec := matMul (transposeM (O.eofs1 xs truncation)) es.2
  let lfcs := matMul xs uvec
  let lfps := matMul (transposeM (O.eofs2 xs truncation)) es.2
  (signFix scale lfps lfcs).1

/-- The returned LFP matrix is the transpose of the pre-rescale sign-fixed
pattern matrix divided rowwise by the scale vector. -/
theorem lfcaPost_snd_eq_rescale (O : LfcaOracles) (xs : List (List ℚ))
    (scale : List ℚ) (truncation : ℕ) (cols : List (List ℚ)) :
    (lfcaPost O xs scale truncation cols).2
      = transposeM (List.zipWith (fun row si => row.map (fun a => a / si))
          (lfcaPreRescale O xs scale truncation cols) scale) := rfl

